import Mathlib

/-!
Shallow embedding of the Android `VelocityTracker` core declared in
`include/input/VelocityTracker.h`: the coordinator plus the four
estimation strategies (least-squares polynomial regression, integrating
IIR estimator, legacy pairwise averager, impulse estimator).

The inline code of the header (constants such as `HORIZON`,
`HISTORY_SIZE`, `MIN_DURATION`, `DEFAULT_STRATEGY`, the `Estimator`
layout and its `clear`, and `Movement::getPosition`) is translated
directly from the source.  The strategy method bodies live in
`VelocityTracker.cpp`, which is not among the available sources; those
bodies are modelled from the specification and each such definition is
marked `Modelled from the spec:` in its doc comment.

Floating point (`float`) is modelled over `ℚ`; `nsecs_t` over `ℤ`;
`BitSet32` over `ℕ` bitmasks restricted to bit indices below 32.
-/

namespace VT

/-- Source: `VelocityTracker::Position` — a pair (x, y) of floats. -/
structure Position where
  x : ℚ
  y : ℚ
  deriving DecidableEq, Repr

/-- Source: `VelocityTracker::Estimator::MAX_DEGREE = 4`. -/
def MAX_DEGREE : ℕ := 4

/-- Source: `VelocityTracker::Estimator` — time base, coefficient arrays
of length `MAX_DEGREE + 1 = 5`, polynomial degree and confidence. -/
structure Estimator where
  time : Int
  xCoeff : List ℚ
  yCoeff : List ℚ
  degree : ℕ
  confidence : ℚ
  deriving DecidableEq, Repr

/-- Source: `VelocityTracker::Estimator::clear()` — zeroes the time,
degree, confidence and all five x and y coefficients. -/
def Estimator.cleared : Estimator :=
  { time := 0
    xCoeff := List.replicate 5 0
    yCoeff := List.replicate 5 0
    degree := 0
    confidence := 0 }

/-- Source: the per-strategy `Movement` record (`eventTime`, `idBits`,
positions packed in ascending pointer-id order).  The same shape also
serves as the input `Sample` of `addMovement`. -/
structure Movement where
  eventTime : Int
  idBits : ℕ
  positions : List Position
  deriving DecidableEq, Repr

/-- Source: `BitSet32::getIndexOfBit(id)` — the number of marked bits
with index strictly below `id`. -/
def indexOfBit (bits id : ℕ) : ℕ :=
  ((List.range id).filter (fun i => bits.testBit i)).length

/-- The marked bit indices of a 32-bit pointer-id set, ascending. -/
def setBits (bits : ℕ) : List ℕ :=
  (List.range 32).filter (fun i => bits.testBit i)

/-- Source: `Movement::getPosition(id)` — the packed position at index
`idBits.getIndexOfBit(id)`. -/
def Movement.getPosition (m : Movement) (id : ℕ) : Position :=
  m.positions.getD (indexOfBit m.idBits id) ⟨0, 0⟩

/-- Source: `HISTORY_SIZE = 20` (identical in the least-squares, legacy
and impulse strategies). -/
def HISTORY_SIZE : ℕ := 20

/-- Source: `LeastSquaresVelocityTrackerStrategy::HORIZON = 100ms`. -/
def LSQ_HORIZON : Int := 100 * 1000000

/-- Source: `LegacyVelocityTrackerStrategy::HORIZON = 200ms`. -/
def LEGACY_HORIZON : Int := 200 * 1000000

/-- Source: `ImpulseVelocityTrackerStrategy::HORIZON = 100ms`. -/
def IMPULSE_HORIZON : Int := 100 * 1000000

/-- Source: `LegacyVelocityTrackerStrategy::MIN_DURATION = 10ms`. -/
def MIN_DURATION : Int := 10 * 1000000

/-- Nanoseconds per second, used to rescale event times to seconds. -/
def NANOS_PER_SECOND : ℚ := 1000000000

/-- Modelled from the spec: the shared fixed-capacity ring buffer of the
buffered strategies — append the new movement, evicting the oldest
records beyond `HISTORY_SIZE`. -/
def bufAdd (h : List Movement) (m : Movement) : List Movement :=
  let h' := h ++ [m]
  if HISTORY_SIZE < h'.length then h'.drop (h'.length - HISTORY_SIZE) else h'

/-- Feeding a whole sample sequence into an empty ring buffer. -/
def feed (xs : List Movement) : List Movement :=
  xs.foldl bufAdd []

/-- Event time of the newest retained movement (0 for an empty buffer). -/
def newestTime (h : List Movement) : Int :=
  (h.getLastD ⟨0, 0, []⟩).eventTime

/-- Modelled from the spec: gather, in time order, every retained sample
within `horizon` of the reference time `T` in which pointer `id` is
present, keeping its time and its position for `id`. -/
def gatherAt (horizon : Int) (T : Int) (h : List Movement) (id : ℕ) :
    List (Int × Position) :=
  (h.filter (fun m => m.idBits.testBit id && decide (T - m.eventTime ≤ horizon))).map
    (fun m => (m.eventTime, m.getPosition id))

/-- Modelled from the spec: `clearPointers` on a buffered strategy must
remove the cleared ids' contribution to already-buffered samples; the
surviving ids keep their positions, repacked in ascending id order. -/
def clearMovement (ids : ℕ) (m : Movement) : Movement :=
  { eventTime := m.eventTime
    idBits := Nat.ldiff m.idBits ids
    positions := (setBits (Nat.ldiff m.idBits ids)).map (fun i => m.getPosition i) }

/-- Modelled from the spec: buffered-strategy `clearPointers`. -/
def bufClearPointers (ids : ℕ) (h : List Movement) : List Movement :=
  h.map (clearMovement ids)

/-- Source: `LeastSquaresVelocityTrackerStrategy::Weighting`. -/
inductive Weighting
  | NONE
  | DELTA
  | CENTRAL
  | RECENT
  deriving DecidableEq, Repr

/-- Modelled from the spec: DELTA weighting — the weight of a sample is
an increasing function of its time gap to the previous sample (the exact
formula is an implementation choice left open by the spec). -/
def deltaWeights (rel : List (Int × Position)) : List ℚ :=
  match rel with
  | [] => []
  | _ :: rest =>
    1 :: (rel.zip rest).map (fun pr =>
      let dt : ℚ := ((pr.2.1 - pr.1.1 : Int) : ℚ)
      dt / (dt + 10000000))

/-- Modelled from the spec: CENTRAL weighting — samples inside a middle
time window around the centre of the gathered range get full weight,
samples outside it are down-weighted (exact formula left open). -/
def centralWeights (rel : List (Int × Position)) : List ℚ :=
  let t0 : ℚ := (((rel.headD (0, ⟨0, 0⟩)).1 : Int) : ℚ)
  let t1 : ℚ := (((rel.getLastD (0, ⟨0, 0⟩)).1 : Int) : ℚ)
  let c := (t0 + t1) / 2
  let hw := (t1 - t0) / 4
  rel.map (fun s => if |((s.1 : Int) : ℚ) - c| ≤ hw then 1 else 1 / 2)

/-- Modelled from the spec: RECENT weighting — the weight decreases
monotonically with the sample's age relative to the newest gathered
sample (exact formula left open). -/
def recentWeights (rel : List (Int × Position)) : List ℚ :=
  let tl : Int := (rel.getLastD (0, ⟨0, 0⟩)).1
  rel.map (fun s =>
    let age : ℚ := ((tl - s.1 : Int) : ℚ)
    1 / (1 + age / NANOS_PER_SECOND))

/-- Modelled from the spec: `chooseWeight` — the per-sample weights of
the configured weighting mode (NONE gives weight 1 to every sample). -/
def chooseWeights (wm : Weighting) (rel : List (Int × Position)) : List ℚ :=
  match wm with
  | .NONE => List.replicate rel.length 1
  | .DELTA => deltaWeights rel
  | .CENTRAL => centralWeights rel
  | .RECENT => recentWeights rel

/-- Weight of sample `i` (default 1 past the end of the weight list). -/
def wgt (wts : List ℚ) (i : ℕ) : ℚ :=
  wts.getD i 1

/-- Elapsed time of sample `i`, rescaled from nanoseconds relative to
the reference time `T` into seconds (per the spec's numeric-semantics
requirement on conditioning). -/
def tauAt (T : Int) (rel : List (Int × Position)) (i : Fin rel.length) : ℚ :=
  (((rel.get i).1 - T : Int) : ℚ) / NANOS_PER_SECOND

/-- x position of gathered sample `i`. -/
def xsOf (rel : List (Int × Position)) (i : Fin rel.length) : ℚ :=
  (rel.get i).2.x

/-- y position of gathered sample `i`. -/
def ysOf (rel : List (Int × Position)) (i : Fin rel.length) : ℚ :=
  (rel.get i).2.y

/-- Row `i`, column `k` of the weighted polynomial design matrix:
`w_i * τ_i ^ k`. -/
def designA (T : Int) (wts : List ℚ) (rel : List (Int × Position))
    (i : Fin rel.length) (k : ℕ) : ℚ :=
  wgt wts i * (tauAt T rel i) ^ k

/-- Weighted fit target: `w_i * value_i`. -/
def target {m : ℕ} (wts : List ℚ) (v : Fin m → ℚ) (i : Fin m) : ℚ :=
  wgt wts i * v i

/-- Predicted (weighted) value of row `i` under coefficients `c`. -/
def predf {m : ℕ} (p : ℕ) (A : Fin m → ℕ → ℚ) (c : List ℚ) (i : Fin m) : ℚ :=
  ∑ k ∈ Finset.range p, A i k * c.getD k 0

/-- Check that candidate coefficients `c` satisfy the normal equations of
the weighted least-squares problem exactly.  A solve whose result fails
this check is treated as degenerate and triggers the degree fallback. -/
def residChk {m : ℕ} (p : ℕ) (A : Fin m → ℕ → ℚ) (b : Fin m → ℚ) (c : List ℚ) : Bool :=
  decide (∀ j ∈ Finset.range p, (∑ i : Fin m, A i j * (predf p A c i - b i)) = 0)

/-- Weighted residual sum of squares of the fit. -/
def sserrOf {m : ℕ} (p : ℕ) (A : Fin m → ℕ → ℚ) (b : Fin m → ℚ) (c : List ℚ) : ℚ :=
  ∑ i : Fin m, (b i - predf p A c i) ^ 2

/-- Weighted total sum of squares about the (plain) mean. -/
def sstotOf {m : ℕ} (wts : List ℚ) (v : Fin m → ℚ) : ℚ :=
  ∑ i : Fin m, (wgt wts i * (v i - (∑ j : Fin m, v j) / (m : ℚ))) ^ 2

/-- Coefficient of determination from the two sums of squares (1 by
convention when the total variation vanishes). -/
def r2Val (sserr sstot : ℚ) : ℚ :=
  if sstot = 0 then 1 else 1 - sserr / sstot

/-- Determinant of an `n × n` rational matrix given as rows, by Laplace
expansion along the first row (recursion on the dimension). -/
def detN : ℕ → List (List ℚ) → ℚ
  | 0, _ => 1
  | _ + 1, [] => 0
  | n + 1, r :: rs =>
    ∑ j ∈ Finset.range (n + 1),
      (-1 : ℚ) ^ j * r.getD j 0 *
        detN n (rs.map (fun row => row.take j ++ row.drop (j + 1)))

/-- Replace column `j` of the matrix by the vector `v`. -/
def replaceCol (N : List (List ℚ)) (v : List ℚ) (j : ℕ) : List (List ℚ) :=
  (N.zip v).map (fun rv => rv.1.set j rv.2)

/-- Cramer solve of an `n × n` rational linear system; `none` when the
determinant vanishes (degenerate system). -/
def solveLin (n : ℕ) (N : List (List ℚ)) (v : List ℚ) : Option (List ℚ) :=
  let d := detN n N
  if d = 0 then none
  else some ((List.range n).map (fun j => detN n (replaceCol N v j) / d))

/-- Normal-equation matrix `AᵀA` of the design, as rows. -/
def nmat {m : ℕ} (p : ℕ) (A : Fin m → ℕ → ℚ) : List (List ℚ) :=
  (List.range p).map (fun j => (List.range p).map (fun k => ∑ i : Fin m, A i j * A i k))

/-- Normal-equation right-hand side `Aᵀb`. -/
def nvec {m : ℕ} (p : ℕ) (A : Fin m → ℕ → ℚ) (b : Fin m → ℚ) : List ℚ :=
  (List.range p).map (fun j => ∑ i : Fin m, A i j * b i)

/-- Pad a coefficient list to the five entries of the Estimator arrays. -/
def padTo5 (c : List ℚ) : List ℚ :=
  (List.range 5).map (fun k => c.getD k 0)

/-- Modelled from the spec: one attempted weighted least-squares
polynomial fit of degree `d` over the gathered samples, solving the
normal equations for x and y independently; the solution is verified
exactly against the normal equations and the attempt fails (degenerate
design) when either solve or check fails.  Confidence is the coefficient
of determination of the coordinate explaining the larger share of
variance. -/
def attemptFit (d : ℕ) (T : Int) (wts : List ℚ)
    (rel : List (Int × Position)) : Option Estimator :=
  match solveLin (d + 1) (nmat (d + 1) (designA T wts rel))
          (nvec (d + 1) (designA T wts rel) (target wts (xsOf rel))),
        solveLin (d + 1) (nmat (d + 1) (designA T wts rel))
          (nvec (d + 1) (designA T wts rel) (target wts (ysOf rel))) with
  | some cx, some cy =>
    if residChk (d + 1) (designA T wts rel) (target wts (xsOf rel)) cx &&
       residChk (d + 1) (designA T wts rel) (target wts (ysOf rel)) cy then
      some
        { time := T
          xCoeff := padTo5 cx
          yCoeff := padTo5 cy
          degree := d
          confidence :=
            max (r2Val (sserrOf (d + 1) (designA T wts rel) (target wts (xsOf rel)) cx)
                   (sstotOf wts (xsOf rel)))
                (r2Val (sserrOf (d + 1) (designA T wts rel) (target wts (ysOf rel)) cy)
                   (sstotOf wts (ysOf rel))) }
    else none
  | _, _ => none

/-- Modelled from the spec: the degree-0 estimate — just the most recent
gathered position, with confidence 0. -/
def degree0Est (T : Int) (rel : List (Int × Position)) : Estimator :=
  { time := T
    xCoeff := [(rel.getLastD (0, ⟨0, 0⟩)).2.x, 0, 0, 0, 0]
    yCoeff := [(rel.getLastD (0, ⟨0, 0⟩)).2.y, 0, 0, 0, 0]
    degree := 0
    confidence := 0 }

/-- Effective fit degree: `min(configured degree, n - 1)` clamped to
`[0, MAX_DEGREE]`. -/
def effDeg (cfg n : ℕ) : ℕ :=
  min (min cfg (n - 1)) MAX_DEGREE

/-- The fallback ladder of attempted fit degrees, from the effective
degree down to 1. -/
def degList (eff : ℕ) : List ℕ :=
  ((List.range eff).reverse).map (fun i => i + 1)

/-- Modelled from the spec:
`LeastSquaresVelocityTrackerStrategy::getEstimator` applied to the
gathered samples — fail with no usable sample, otherwise attempt the
effective degree and fall back degree by degree on degeneracy, down to
the degree-0 estimate. -/
def lsqEstFrom (cfg : ℕ) (wm : Weighting) (T : Int)
    (rel : List (Int × Position)) : Option Estimator :=
  match rel with
  | [] => none
  | _ :: _ =>
    match (degList (effDeg cfg rel.length)).findSome?
        (fun d => attemptFit d T (chooseWeights wm rel) rel) with
    | some e => some e
    | none => some (degree0Est T rel)

/-- The consecutive sample pairs whose time separation is at least
`MIN_DURATION` (the qualifying pairs of the legacy strategy). -/
def legacyQPairs (rel : List (Int × Position)) :
    List ((Int × Position) × Int × Position) :=
  (rel.zip rel.tail).filter (fun pr => decide (MIN_DURATION ≤ pr.2.1 - pr.1.1))

/-- Instantaneous x velocity of one sample pair, in units per second. -/
def pairVelX (pr : (Int × Position) × Int × Position) : ℚ :=
  (pr.2.2.x - pr.1.2.x) / (((pr.2.1 - pr.1.1 : Int) : ℚ) / NANOS_PER_SECOND)

/-- Instantaneous y velocity of one sample pair, in units per second. -/
def pairVelY (pr : (Int × Position) × Int × Position) : ℚ :=
  (pr.2.2.y - pr.1.2.y) / (((pr.2.1 - pr.1.1 : Int) : ℚ) / NANOS_PER_SECOND)

/-- Total pair weight of the legacy average (older pairs weigh less:
the k-th qualifying pair, oldest first, has weight k+1). -/
def legacyWSum (rel : List (Int × Position)) : ℚ :=
  (((List.range (legacyQPairs rel).length).map (fun i => (i + 1 : ℚ)))).sum

/-- Weighted-average x velocity of the legacy strategy. -/
def legacyVelX (rel : List (Int × Position)) : ℚ :=
  (((legacyQPairs rel).enum.map
    (fun ip => ((ip.1 + 1 : ℕ) : ℚ) * pairVelX ip.2)).sum) / legacyWSum rel

/-- Weighted-average y velocity of the legacy strategy. -/
def legacyVelY (rel : List (Int × Position)) : ℚ :=
  (((legacyQPairs rel).enum.map
    (fun ip => ((ip.1 + 1 : ℕ) : ℚ) * pairVelY ip.2)).sum) / legacyWSum rel

/-- Modelled from the spec:
`LegacyVelocityTrackerStrategy::getEstimator` applied to the gathered
samples — average the velocities of consecutive pairs separated by at
least `MIN_DURATION`, older pairs weighted less; degree 1; confidence 1
exactly when a qualifying pair exists. -/
def legacyEstFrom (T : Int) (rel : List (Int × Position)) : Option Estimator :=
  match rel with
  | [] => none
  | _ :: _ =>
    some
      { time := T
        xCoeff := [(rel.getLastD (0, ⟨0, 0⟩)).2.x,
          if (legacyQPairs rel).length = 0 then 0 else legacyVelX rel, 0, 0, 0]
        yCoeff := [(rel.getLastD (0, ⟨0, 0⟩)).2.y,
          if (legacyQPairs rel).length = 0 then 0 else legacyVelY rel, 0, 0, 0]
        degree := 1
        confidence := if (legacyQPairs rel).length = 0 then 0 else 1 }

/-- Accumulated elapsed time of the consecutive sample pairs, seconds. -/
def impulseSumDt (rel : List (Int × Position)) : ℚ :=
  (((rel.zip rel.tail).map (fun pr => ((pr.2.1 - pr.1.1 : Int) : ℚ))).sum) /
    NANOS_PER_SECOND

/-- Accumulated x displacement normalised by accumulated elapsed time. -/
def impulseVelX (rel : List (Int × Position)) : ℚ :=
  (((rel.zip rel.tail).map (fun pr => pr.2.2.x - pr.1.2.x)).sum) / impulseSumDt rel

/-- Accumulated y displacement normalised by accumulated elapsed time. -/
def impulseVelY (rel : List (Int × Position)) : ℚ :=
  (((rel.zip rel.tail).map (fun pr => pr.2.2.y - pr.1.2.y)).sum) / impulseSumDt rel

/-- Modelled from the spec:
`ImpulseVelocityTrackerStrategy::getEstimator` applied to the gathered
samples — fail with fewer than two samples, otherwise normalise the
accumulated pairwise displacement by the accumulated elapsed time;
degree 1, confidence 1. -/
def impulseEstFrom (T : Int) (rel : List (Int × Position)) : Option Estimator :=
  if rel.length < 2 then none
  else
    some
      { time := T
        xCoeff := [(rel.getLastD (0, ⟨0, 0⟩)).2.x, impulseVelX rel, 0, 0, 0]
        yCoeff := [(rel.getLastD (0, ⟨0, 0⟩)).2.y, impulseVelY rel, 0, 0, 0]
        degree := 1
        confidence := 1 }

/-- The three ring-buffer strategies, with their configuration. -/
inductive BufKind
  | lsq (degree : ℕ) (wm : Weighting)
  | legacy
  | impulse
  deriving DecidableEq, Repr

/-- The sample horizon of each buffered strategy. -/
def horizonOf : BufKind → Int
  | .lsq _ _ => LSQ_HORIZON
  | .legacy => LEGACY_HORIZON
  | .impulse => IMPULSE_HORIZON

/-- Per-kind estimate from the gathered samples. -/
def estFrom (k : BufKind) (T : Int) (rel : List (Int × Position)) : Option Estimator :=
  match k with
  | .lsq d wm => lsqEstFrom d wm T rel
  | .legacy => legacyEstFrom T rel
  | .impulse => impulseEstFrom T rel

/-- The gathered usable samples of a buffered strategy for pointer `id`:
retained movements containing `id` within the horizon measured backward
from the newest retained movement. -/
def bufGather (k : BufKind) (h : List Movement) (id : ℕ) : List (Int × Position) :=
  gatherAt (horizonOf k) (newestTime h) h id

/-- Modelled from the spec: `getEstimator` of a buffered strategy. -/
def bufGetEstimator (k : BufKind) (h : List Movement) (id : ℕ) : Option Estimator :=
  estFrom k (newestTime h) (bufGather k h id)

/-- Source: `IntegratingVelocityTrackerStrategy::State` — last update
time and per-axis position, velocity and acceleration. -/
structure IntState where
  updateTime : Int
  xpos : ℚ
  xvel : ℚ
  xaccel : ℚ
  ypos : ℚ
  yvel : ℚ
  yaccel : ℚ
  deriving DecidableEq, Repr

/-- Look up the kinematic state recorded for pointer `id`. -/
def lookupState (sts : List (ℕ × IntState)) (id : ℕ) : Option IntState :=
  (sts.find? (fun p => decide (p.1 = id))).map (fun p => p.2)

/-- Insert or replace the state of pointer `id`. -/
def upsertState (sts : List (ℕ × IntState)) (id : ℕ) (s : IntState) :
    List (ℕ × IntState) :=
  if sts.any (fun p => decide (p.1 = id)) then
    sts.map (fun p => if p.1 = id then (id, s) else p)
  else (id, s) :: sts

/-- Modelled from the spec: the IIR blend time constant of the
integrating strategy (10 ms, an implementation choice left open). -/
def FILTER_TIME_CONSTANT : ℚ := 1 / 100

/-- Modelled from the spec:
`IntegratingVelocityTrackerStrategy::initState` — first observation (or
non-monotonic timestamp): position from the sample, zero velocity and
acceleration. -/
def initState (t : Int) (p : Position) : IntState :=
  { updateTime := t, xpos := p.x, xvel := 0, xaccel := 0
    ypos := p.y, yvel := 0, yaccel := 0 }

/-- Elapsed time since a pointer state's last update, in seconds. -/
def dtSec (t : Int) (s : IntState) : ℚ :=
  ((t - s.updateTime : Int) : ℚ) / NANOS_PER_SECOND

/-- The IIR blend factor for one update of the integrating strategy. -/
def blendAlpha (t : Int) (s : IntState) : ℚ :=
  dtSec t s / (FILTER_TIME_CONSTANT + dtSec t s)

/-- Instantaneous x velocity of one update of the integrating strategy. -/
def instVelX (t : Int) (p : Position) (s : IntState) : ℚ :=
  (p.x - s.xpos) / dtSec t s

/-- Instantaneous y velocity of one update of the integrating strategy. -/
def instVelY (t : Int) (p : Position) (s : IntState) : ℚ :=
  (p.y - s.ypos) / dtSec t s

/-- Modelled from the spec:
`IntegratingVelocityTrackerStrategy::updateState` — derive an
instantaneous velocity from the position delta over `dt` and blend it
into the stored velocity (and, at degree 2, blend the acceleration);
`dt ≤ 0` reinitialises the pointer's state. -/
def updateState (useAccel : Bool) (t : Int) (p : Position) (s : IntState) : IntState :=
  if t - s.updateTime ≤ 0 then initState t p
  else
    { updateTime := t
      xpos := p.x
      xvel := s.xvel + blendAlpha t s * (instVelX t p s - s.xvel)
      xaccel :=
        if useAccel then
          s.xaccel + blendAlpha t s * ((instVelX t p s - s.xvel) / dtSec t s - s.xaccel)
        else 0
      ypos := p.y
      yvel := s.yvel + blendAlpha t s * (instVelY t p s - s.yvel)
      yaccel :=
        if useAccel then
          s.yaccel + blendAlpha t s * ((instVelY t p s - s.yvel) / dtSec t s - s.yaccel)
        else 0 }

/-- Modelled from the spec:
`IntegratingVelocityTrackerStrategy::addMovement` — for each pointer id
present in the sample, initialise or update its kinematic state. -/
def integAdd (useAccel : Bool) (sts : List (ℕ × IntState)) (m : Movement) :
    List (ℕ × IntState) :=
  (setBits m.idBits).foldl
    (fun acc id =>
      upsertState acc id
        (match lookupState acc id with
         | none => initState m.eventTime (m.getPosition id)
         | some s => updateState useAccel m.eventTime (m.getPosition id) s))
    sts

/-- Modelled from the spec:
`IntegratingVelocityTrackerStrategy::getEstimator` — fail for a pointer
with no state; otherwise degree is the configured degree (1 or 2),
coefficients come from the stored kinematic quantities and confidence is
fixed at 1. -/
def integGetEstimator (useAccel : Bool) (sts : List (ℕ × IntState)) (id : ℕ) :
    Option Estimator :=
  match lookupState sts id with
  | none => none
  | some s =>
    some
      { time := s.updateTime
        xCoeff := [s.xpos, s.xvel, if useAccel then s.xaccel / 2 else 0, 0, 0]
        yCoeff := [s.ypos, s.yvel, if useAccel then s.yaccel / 2 else 0, 0, 0]
        degree := if useAccel then 2 else 1
        confidence := 1 }

/-- The state of the active strategy: one of the three ring-buffer
strategies, or the integrating strategy (degree 1 when `useAccel` is
false, degree 2 when true — the constructor admits only degrees 1 and 2). -/
inductive StratState
  | buffered (k : BufKind) (hist : List Movement)
  | integ (useAccel : Bool) (states : List (ℕ × IntState))
  deriving DecidableEq, Repr

/-- Strategy `addMovement` dispatch. -/
def stratAdd (st : StratState) (m : Movement) : StratState :=
  match st with
  | .buffered k h => .buffered k (bufAdd h m)
  | .integ ua sts => .integ ua (integAdd ua sts m)

/-- Strategy `clear` dispatch. -/
def stratClear (st : StratState) : StratState :=
  match st with
  | .buffered k _ => .buffered k []
  | .integ ua _ => .integ ua []

/-- Strategy `clearPointers` dispatch.  Modelled from the spec: buffered
strategies drop the cleared ids' contribution from every retained
sample; the integrating strategy drops the cleared ids' states. -/
def stratClearPointers (st : StratState) (ids : ℕ) : StratState :=
  match st with
  | .buffered k h => .buffered k (bufClearPointers ids h)
  | .integ ua sts => .integ ua (sts.filter (fun p => !ids.testBit p.1))

/-- Strategy `getEstimator` dispatch. -/
def stratGetEstimator (st : StratState) (id : ℕ) : Option Estimator :=
  match st with
  | .buffered k h => bufGetEstimator k h id
  | .integ ua sts => integGetEstimator ua sts id

/-- Source: `VelocityTracker::Strategy` — the strategy selector. -/
inductive Strategy
  | DEFAULT
  | IMPULSE
  | LSQ1
  | LSQ2
  | LSQ3
  | WLSQ2_DELTA
  | WLSQ2_CENTRAL
  | WLSQ2_RECENT
  | INT1
  | INT2
  | LEGACY
  deriving DecidableEq, Repr

/-- Source/spec: `VelocityTracker::createStrategy`, with
`DEFAULT_STRATEGY = Strategy::LSQ2` from the header; each selector
resolves to its strategy's freshly constructed (empty) state. -/
def createStrategy (s : Strategy) : StratState :=
  match s with
  | .DEFAULT => .buffered (.lsq 2 .NONE) []
  | .IMPULSE => .buffered .impulse []
  | .LSQ1 => .buffered (.lsq 1 .NONE) []
  | .LSQ2 => .buffered (.lsq 2 .NONE) []
  | .LSQ3 => .buffered (.lsq 3 .NONE) []
  | .WLSQ2_DELTA => .buffered (.lsq 2 .DELTA) []
  | .WLSQ2_CENTRAL => .buffered (.lsq 2 .CENTRAL) []
  | .WLSQ2_RECENT => .buffered (.lsq 2 .RECENT) []
  | .INT1 => .integ false []
  | .INT2 => .integ true []
  | .LEGACY => .buffered .legacy []

/-- Source: `VelocityTracker` — coordinator-local bookkeeping plus the
strategy state. -/
structure Tracker where
  lastEventTime : Int
  currentPointerIdBits : ℕ
  activePointerId : Option ℕ
  strat : StratState
  deriving DecidableEq, Repr

/-- A freshly constructed tracker for the given strategy selector. -/
def Tracker.init (s : Strategy) : Tracker :=
  { lastEventTime := 0
    currentPointerIdBits := 0
    activePointerId := none
    strat := createStrategy s }

/-- Modelled from the spec: `VelocityTracker::addMovement(eventTime,
idBits, positions)` — record the id set as current, keep the active
pointer while it is still present, and forward the sample to the
strategy. -/
def Tracker.addMovement (t : Tracker) (m : Movement) : Tracker :=
  { lastEventTime := m.eventTime
    currentPointerIdBits := m.idBits
    activePointerId :=
      match t.activePointerId with
      | some a => if m.idBits.testBit a then some a else (setBits m.idBits).head?
      | none => (setBits m.idBits).head?
    strat := stratAdd t.strat m }

/-- Modelled from the spec: `VelocityTracker::clear` — reset the
bookkeeping and clear the strategy without changing the strategy choice. -/
def Tracker.clear (t : Tracker) : Tracker :=
  { lastEventTime := 0
    currentPointerIdBits := 0
    activePointerId := none
    strat := stratClear t.strat }

/-- Modelled from the spec: `VelocityTracker::clearPointers` — remove
the given ids from the bookkeeping and from the strategy state. -/
def Tracker.clearPointers (t : Tracker) (ids : ℕ) : Tracker :=
  { lastEventTime := t.lastEventTime
    currentPointerIdBits := Nat.ldiff t.currentPointerIdBits ids
    activePointerId :=
      match t.activePointerId with
      | some a => if ids.testBit a then none else some a
      | none => none
    strat := stratClearPointers t.strat ids }

/-- Modelled from the spec: `VelocityTracker::getEstimator` — delegate
to the strategy; on failure return `false` and a cleared estimator. -/
def Tracker.getEstimator (t : Tracker) (id : ℕ) : Bool × Estimator :=
  match stratGetEstimator t.strat id with
  | some e => (true, e)
  | none => (false, Estimator.cleared)

/-- Modelled from the spec: `VelocityTracker::getVelocity` — delegate to
`getEstimator`; succeed only at degree ≥ 1, returning the first-order
coefficients (the internal fits are already expressed in position units
per second); on failure return `false` and the zero pair. -/
def Tracker.getVelocity (t : Tracker) (id : ℕ) : Bool × ℚ × ℚ :=
  let r := t.getEstimator id
  if r.1 && decide (1 ≤ r.2.degree) then
    (true, r.2.xCoeff.getD 1 0, r.2.yCoeff.getD 1 0)
  else (false, 0, 0)

/-- A motion event bundling historical sub-samples (oldest first) and a
final sample. -/
structure MotionEvent where
  historical : List Movement
  final : Movement

/-- Modelled from the spec: `VelocityTracker::addMovement(const
MotionEvent*)` — replay every historical sub-sample, oldest first, then
the event's final sample, each as an ordinary `addMovement`. -/
def Tracker.addMovementEvent (t : Tracker) (ev : MotionEvent) : Tracker :=
  (ev.historical ++ [ev.final]).foldl Tracker.addMovement t

/-- One call of the tracker's mutating interface. -/
inductive Call
  | add (m : Movement)
  | clear
  | clearPointers (ids : ℕ)

/-- Apply one mutating call. -/
def applyCall (t : Tracker) (c : Call) : Tracker :=
  match c with
  | .add m => t.addMovement m
  | .clear => t.clear
  | .clearPointers ids => t.clearPointers ids

/-- Run a sequence of mutating calls. -/
def runCalls (t : Tracker) (cs : List Call) : Tracker :=
  cs.foldl applyCall t

/-- "Insufficient data" for pointer `id`: a buffered strategy gathers no
usable sample for it (no samples recorded, all of the pointer's samples
outside the horizon, or the id never presented); the integrating
strategy holds no state for it. -/
def stratNoData : StratState → ℕ → Prop
  | .buffered k h, id => bufGather k h id = []
  | .integ _ sts, id => lookupState sts id = none

/-- Well-formed integrating-strategy state table: distinct keys, all of
them valid pointer ids (below 32). -/
def integKeysOk (sts : List (ℕ × IntState)) : Prop :=
  (sts.map Prod.fst).Nodup ∧ ∀ k ∈ sts.map Prod.fst, k < 32

/-- The inductive storage invariant of a strategy state. -/
def stratInv : StratState → Prop
  | .buffered _ h => h.length ≤ HISTORY_SIZE
  | .integ _ sts => integKeysOk sts

/-- The claimed storage bound of a strategy state: at most
`HISTORY_SIZE = 20` buffered movement records, at most 32 integrating
per-pointer states. -/
def stratWithinBounds : StratState → Prop
  | .buffered _ h => h.length ≤ HISTORY_SIZE
  | .integ _ sts => sts.length ≤ 32

/-- A call avoiding pointer `id`: any clear, or an `addMovement` whose
id set does not contain `id`. -/
def callAvoids (id : ℕ) : Call → Prop
  | .add m => m.idBits.testBit id = false
  | .clear => True
  | .clearPointers _ => True

/-- "No trace of pointer `id`" invariant of a strategy state. -/
def stratNoDataFor (id : ℕ) : StratState → Prop
  | .buffered _ h => ∀ m ∈ h, m.idBits.testBit id = false
  | .integ _ sts => ∀ p ∈ sts, p.1 ≠ id

/-- The spec's estimator invariant, as amended: confidence lies in
[0, 1], and a degree-0 estimator has confidence 0 and no coefficients of
order 1 or higher (its constant term may carry the most recent
position). -/
def estimatorOk (e : Estimator) : Prop :=
  0 ≤ e.confidence ∧ e.confidence ≤ 1 ∧
    (e.degree = 0 → e.confidence = 0 ∧
      ∀ k, 1 ≤ k → e.xCoeff.getD k 0 = 0 ∧ e.yCoeff.getD k 0 = 0)

/-- Every buffered strategy fails on an empty gather. -/
theorem estFrom_nil (k : BufKind) (T : Int) : estFrom k T [] = none := by
  cases k <;> rfl

/-- A failing strategy query surfaces as `false` plus a cleared
estimator at the coordinator. -/
theorem getEstimator_eq_of_none {t : Tracker} {id : ℕ}
    (h : stratGetEstimator t.strat id = none) :
    t.getEstimator id = (false, Estimator.cleared) := by
  unfold Tracker.getEstimator
  rw [h]

/-- No usable data means the strategy query fails. -/
theorem stratGetEstimator_eq_none {st : StratState} {id : ℕ}
    (h : stratNoData st id) : stratGetEstimator st id = none := by
  cases st with
  | buffered k hist =>
    have hg : bufGather k hist id = [] := h
    show bufGetEstimator k hist id = none
    unfold bufGetEstimator
    rw [hg, estFrom_nil]
  | integ ua sts =>
    have hl : lookupState sts id = none := h
    show integGetEstimator ua sts id = none
    unfold integGetEstimator
    rw [hl]

/-- Claim C1: for every pointer id with insufficient data (no samples
recorded, all of the pointer's samples outside the strategy's horizon,
or an id never presented) `getEstimator` returns success `false`
together with the fully zeroed estimator, and this holds in particular
for a freshly constructed tracker with any strategy and for any tracker
immediately after `clear()`.  (The embedding is total, so no call can
raise an exception.) -/
theorem getEstimator_insufficient_data (t : Tracker) (id : ℕ) :
    (stratNoData t.strat id → t.getEstimator id = (false, Estimator.cleared)) ∧
    (∀ s : Strategy, (Tracker.init s).getEstimator id = (false, Estimator.cleared)) ∧
    (t.clear).getEstimator id = (false, Estimator.cleared) := by
  refine ⟨fun h => getEstimator_eq_of_none (stratGetEstimator_eq_none h), fun s => ?_, ?_⟩
  · cases s <;> rfl
  · cases ht : t.strat with
    | buffered k hist =>
      apply getEstimator_eq_of_none
      show stratGetEstimator (Tracker.clear t).strat id = none
      simp only [Tracker.clear, stratClear, ht]
      exact stratGetEstimator_eq_none rfl
    | integ ua sts =>
      apply getEstimator_eq_of_none
      show stratGetEstimator (Tracker.clear t).strat id = none
      simp only [Tracker.clear, stratClear, ht]
      exact stratGetEstimator_eq_none rfl

/-- Witness for C1 at a concrete input: a fresh least-squares tracker
has no data for pointer 0 and reports `false` with the cleared
estimator. -/
theorem getEstimator_insufficient_data_witness :
    (Tracker.init Strategy.LSQ2).getEstimator 0 = (false, Estimator.cleared) :=
  (getEstimator_insufficient_data (Tracker.init Strategy.LSQ2) 0).1 rfl

/-- Claim C2: `getVelocity` succeeds exactly when `getEstimator`
succeeds with degree at least 1, in which case it returns the
estimator's first-order x and y coefficients (the fits are expressed in
position units per second); on failure it returns `false` and exactly
zero for both components, so success is distinguishable from a true
(0, 0) velocity only via the flag. -/
theorem getVelocity_iff_degree (t : Tracker) (id : ℕ) :
    ((t.getVelocity id).1 = true ↔
      (t.getEstimator id).1 = true ∧ 1 ≤ (t.getEstimator id).2.degree) ∧
    ((t.getVelocity id).1 = true →
      (t.getVelocity id).2.1 = (t.getEstimator id).2.xCoeff.getD 1 0 ∧
      (t.getVelocity id).2.2 = (t.getEstimator id).2.yCoeff.getD 1 0) ∧
    ((t.getVelocity id).1 = false →
      (t.getVelocity id).2.1 = 0 ∧ (t.getVelocity id).2.2 = 0) := by
  unfold Tracker.getVelocity
  by_cases hb : (t.getEstimator id).1 = true
  · by_cases hd : 1 ≤ (t.getEstimator id).2.degree
    · simp [hb, hd]
    · simp [hb, hd]
  · simp only [Bool.not_eq_true] at hb
    simp [hb]

/-- Witness for C2 at a concrete input: a fresh legacy tracker fails the
query and returns the zero velocity pair. -/
theorem getVelocity_iff_degree_witness :
    ((Tracker.init Strategy.LEGACY).getVelocity 0).2.1 = 0 ∧
    ((Tracker.init Strategy.LEGACY).getVelocity 0).2.2 = 0 :=
  (getVelocity_iff_degree (Tracker.init Strategy.LEGACY) 0).2.2
    (by with_unfolding_all decide)

/-- Claim C8: every strategy is a pure function of the call sequence —
the tracker state is data, queries take no other input and mutate
nothing, so two runs of the same call sequence (and two consecutive
queries with no intervening mutation) agree definitionally. -/
theorem strategies_deterministic (s : Strategy) (cs : List Call) (id : ℕ) :
    (runCalls (Tracker.init s) cs).getEstimator id =
      (runCalls (Tracker.init s) cs).getEstimator id ∧
    (runCalls (Tracker.init s) cs).getVelocity id =
      (runCalls (Tracker.init s) cs).getVelocity id :=
  ⟨rfl, rfl⟩

/-- Claim C9: the convenience event overload replays every historical
sub-sample, oldest first, then the final sample, as ordinary
`addMovement` calls — all subsequent queries agree with the manual
replay. -/
theorem addMovementEvent_replays (t : Tracker) (ev : MotionEvent) (id : ℕ) :
    ((t.addMovementEvent ev).getEstimator id =
      ((ev.historical ++ [ev.final]).foldl Tracker.addMovement t).getEstimator id) ∧
    ((t.addMovementEvent ev).getVelocity id =
      ((ev.historical ++ [ev.final]).foldl Tracker.addMovement t).getVelocity id) :=
  ⟨rfl, rfl⟩

/-- The element of the ascending set-bit list at the index-of-bit of a
marked id is that id itself. -/
theorem setBits_getElem? (b id : ℕ) (h32 : id < 32) (hbit : b.testBit id = true) :
    (setBits b)[indexOfBit b id]? = some id := by
  have hdec : (32 : ℕ) = (id + 1) + (31 - id) := by omega
  show ((List.range 32).filter (fun i => b.testBit i))[
    ((List.range id).filter (fun i => b.testBit i)).length]? = some id
  rw [hdec, List.range_add, List.filter_append, List.range_succ, List.filter_append]
  have hfid : List.filter (fun i => b.testBit i) [id] = [id] := by simp [hbit]
  rw [hfid, List.append_assoc, List.getElem?_append_right (le_refl _)]
  simp

/-- The index of a marked id is in bounds for the set-bit list. -/
theorem indexOfBit_lt_length (b id : ℕ) (h32 : id < 32) (hbit : b.testBit id = true) :
    indexOfBit b id < (setBits b).length := by
  have h := setBits_getElem? b id h32 hbit
  by_contra hge
  rw [List.getElem?_eq_none (by omega)] at h
  exact Option.noConfusion h

/-- Reading a position list built from the set bits at the index of a
marked id yields that id's entry. -/
theorem setBits_map_getD (b id : ℕ) (f : ℕ → Position)
    (h32 : id < 32) (hbit : b.testBit id = true) :
    ((setBits b).map f).getD (indexOfBit b id) ⟨0, 0⟩ = f id := by
  have h := setBits_getElem? b id h32 hbit
  rw [List.getD_eq_getElem?_getD, List.getElem?_map, h]
  rfl

/-- Claim C10: the buffered `Movement::getPosition(id)` looks the
position up at the index `getIndexOfBit id` = the number of marked bits
below `id`; when `id` belongs to the record's id set and the packed
position list has one entry per marked bit, that index is strictly in
bounds, so the access is well-defined and yields the packed entry. -/
theorem getPosition_in_bounds (m : Movement) (id : ℕ) (h32 : id < 32)
    (hbit : m.idBits.testBit id = true)
    (hwf : m.positions.length = (setBits m.idBits).length) :
    indexOfBit m.idBits id < m.positions.length ∧
    m.positions[indexOfBit m.idBits id]? = some (m.getPosition id) := by
  have hlt : indexOfBit m.idBits id < m.positions.length := by
    rw [hwf]
    exact indexOfBit_lt_length m.idBits id h32 hbit
  refine ⟨hlt, ?_⟩
  show m.positions[indexOfBit m.idBits id]? =
    some (m.positions.getD (indexOfBit m.idBits id) ⟨0, 0⟩)
  rw [List.getD_eq_getElem?_getD, List.getElem?_eq_getElem hlt]
  rfl

/-- Witness for C10 at a concrete input: a two-pointer movement with ids
1 and 2; the position of id 2 sits at index 1, in bounds. -/
theorem getPosition_in_bounds_witness :
    indexOfBit 6 2 < ([⟨1, 2⟩, ⟨3, 4⟩] : List Position).length ∧
    (Movement.mk 0 6 [⟨1, 2⟩, ⟨3, 4⟩]).positions[indexOfBit 6 2]? =
      some ((Movement.mk 0 6 [⟨1, 2⟩, ⟨3, 4⟩]).getPosition 2) :=
  getPosition_in_bounds ⟨0, 6, [⟨1, 2⟩, ⟨3, 4⟩]⟩ 2 (by decide) (by decide)
    (by decide)

/-- One ring-buffer insertion never leaves more than `HISTORY_SIZE`
records, whatever the previous contents. -/
theorem bufAdd_length_le (h : List Movement) (m : Movement) :
    (bufAdd h m).length ≤ HISTORY_SIZE := by
  show (if HISTORY_SIZE < (h ++ [m]).length then
      (h ++ [m]).drop ((h ++ [m]).length - HISTORY_SIZE) else (h ++ [m])).length ≤
    HISTORY_SIZE
  split
  · rw [List.length_drop]
    omega
  · omega

/-- Upserting a valid pointer id preserves table well-formedness. -/
theorem upsertState_keysOk (sts : List (ℕ × IntState)) (id : ℕ) (s : IntState)
    (hid : id < 32) (h : integKeysOk sts) : integKeysOk (upsertState sts id s) := by
  unfold upsertState
  split
  · have hkeys : (sts.map (fun p => if p.1 = id then (id, s) else p)).map Prod.fst =
        sts.map Prod.fst := by
      rw [List.map_map]
      apply List.map_congr_left
      intro p _
      by_cases hp : p.1 = id
      · simp [hp]
      · simp [hp]
    constructor
    · rw [hkeys]; exact h.1
    · rw [hkeys]; exact h.2
  · rename_i hany
    constructor
    · rw [List.map_cons, List.nodup_cons]
      refine ⟨fun hmem => ?_, h.1⟩
      rcases List.mem_map.1 hmem with ⟨p, hp, hfst⟩
      rw [List.any_eq_true] at hany
      exact hany ⟨p, hp, by simp [hfst]⟩
    · intro k hk
      rcases List.mem_cons.1 hk with hk | hk
      · omega
      · exact h.2 k hk

/-- Folding upserts of valid ids preserves table well-formedness. -/
theorem foldl_upsert_keysOk (f : List (ℕ × IntState) → ℕ → IntState)
    (ids : List ℕ) (sts : List (ℕ × IntState))
    (hids : ∀ id ∈ ids, id < 32) (h : integKeysOk sts) :
    integKeysOk (ids.foldl (fun acc id => upsertState acc id (f acc id)) sts) := by
  induction ids generalizing sts with
  | nil => exact h
  | cons a l ih =>
    exact ih _ (fun id hid => hids id (List.mem_cons_of_mem a hid))
      (upsertState_keysOk sts a (f sts a) (hids a (List.mem_cons_self a l)) h)

/-- `addMovement` of the integrating strategy preserves table
well-formedness (the ids it touches come from the 32-bit id set). -/
theorem integAdd_keysOk (ua : Bool) (sts : List (ℕ × IntState)) (m : Movement)
    (h : integKeysOk sts) : integKeysOk (integAdd ua sts m) := by
  unfold integAdd
  apply foldl_upsert_keysOk
  · intro id hid
    have := (List.mem_filter.1 hid).1
    exact List.mem_range.1 this
  · exact h

/-- A well-formed table has at most 32 entries. -/
theorem integKeysOk_length_le (sts : List (ℕ × IntState)) (h : integKeysOk sts) :
    sts.length ≤ 32 := by
  have h1 : (sts.map Prod.fst).length = sts.length := List.length_map sts Prod.fst
  have hsub : (sts.map Prod.fst).toFinset ⊆ Finset.range 32 := by
    intro k hk
    exact Finset.mem_range.2 (h.2 k (List.mem_toFinset.1 hk))
  calc sts.length = (sts.map Prod.fst).length := h1.symm
    _ = (sts.map Prod.fst).toFinset.card := (List.toFinset_card_of_nodup h.1).symm
    _ ≤ (Finset.range 32).card := Finset.card_le_card hsub
    _ = 32 := Finset.card_range 32

/-- The storage invariant is preserved by every call. -/
theorem stratInv_applyCall (t : Tracker) (c : Call) (h : stratInv t.strat) :
    stratInv (applyCall t c).strat := by
  cases c with
  | add m =>
    cases ht : t.strat with
    | buffered k hist =>
      show stratInv (stratAdd t.strat m)
      rw [ht]
      exact bufAdd_length_le hist m
    | integ ua sts =>
      show stratInv (stratAdd t.strat m)
      rw [ht]
      rw [ht] at h
      exact integAdd_keysOk ua sts m h
  | clear =>
    cases ht : t.strat with
    | buffered k hist =>
      show stratInv (stratClear t.strat)
      rw [ht]
      show (List.length ([] : List Movement)) ≤ HISTORY_SIZE
      decide
    | integ ua sts =>
      show stratInv (stratClear t.strat)
      rw [ht]
      exact ⟨List.nodup_nil, by intro k hk; cases hk⟩
  | clearPointers ids =>
    cases ht : t.strat with
    | buffered k hist =>
      show stratInv (stratClearPointers t.strat ids)
      rw [ht]
      rw [ht] at h
      show (bufClearPointers ids hist).length ≤ HISTORY_SIZE
      unfold bufClearPointers
      rw [List.length_map]
      exact h
    | integ ua sts =>
      show stratInv (stratClearPointers t.strat ids)
      rw [ht]
      rw [ht] at h
      have hsl : ((sts.filter (fun p => !ids.testBit p.1)).map Prod.fst).Sublist
          (sts.map Prod.fst) := (List.filter_sublist sts).map Prod.fst
      refine ⟨h.1.sublist hsl, fun k hk => h.2 k (hsl.mem hk)⟩

/-- The storage invariant holds after any call sequence. -/
theorem stratInv_runCalls (t : Tracker) (cs : List Call) (h : stratInv t.strat) :
    stratInv (runCalls t cs).strat := by
  induction cs generalizing t with
  | nil => exact h
  | cons c l ih => exact ih (applyCall t c) (stratInv_applyCall t c h)

/-- Claim C7: tracker memory is bounded for every call sequence of any
length — each buffered strategy retains at most `HISTORY_SIZE = 20`
movement records (oldest evicted on overflow) and the integrating
strategy holds at most 32 per-pointer-id states. -/
theorem storage_bounded (s : Strategy) (cs : List Call) :
    stratWithinBounds (runCalls (Tracker.init s) cs).strat := by
  have hinit : stratInv (Tracker.init s).strat := by
    cases s <;> first
      | exact (by decide : (List.length ([] : List Movement)) ≤ HISTORY_SIZE)
      | exact ⟨List.nodup_nil, by intro k hk; cases hk⟩
  have h := stratInv_runCalls (Tracker.init s) cs hinit
  cases hs : (runCalls (Tracker.init s) cs).strat with
  | buffered k hist =>
    rw [hs] at h
    exact h
  | integ ua sts =>
    rw [hs] at h
    exact integKeysOk_length_le sts h

/-- Closed form of one ring-buffer insertion when the buffer is within
capacity. -/
theorem bufAdd_eq (h : List Movement) (m : Movement) (_hh : h.length ≤ HISTORY_SIZE) :
    bufAdd h m = (h ++ [m]).drop ((h ++ [m]).length - HISTORY_SIZE) := by
  show (if HISTORY_SIZE < (h ++ [m]).length then
      (h ++ [m]).drop ((h ++ [m]).length - HISTORY_SIZE) else (h ++ [m])) = _
  split
  · rfl
  · rename_i hc
    rw [Nat.sub_eq_zero_of_le (by omega), List.drop_zero]

/-- Closed form of feeding a sample list into a within-capacity buffer:
the buffer retains the suffix of the last `HISTORY_SIZE` records. -/
theorem foldl_bufAdd_eq (xs : List Movement) :
    ∀ h : List Movement, h.length ≤ HISTORY_SIZE →
      xs.foldl bufAdd h = (h ++ xs).drop ((h ++ xs).length - HISTORY_SIZE) := by
  induction xs with
  | nil =>
    intro h hh
    rw [List.foldl_nil, List.append_nil, Nat.sub_eq_zero_of_le hh, List.drop_zero]
  | cons m xs ih =>
    intro h hh
    rw [List.foldl_cons, ih (bufAdd h m) (bufAdd_length_le h m), bufAdd_eq h m hh]
    rw [← List.drop_append_of_le_length (Nat.sub_le _ _), List.drop_drop]
    rw [List.append_assoc, List.singleton_append]
    congr 1
    simp only [List.length_drop, List.length_append, List.length_cons,
      List.length_singleton, List.length_nil, HISTORY_SIZE]
    omega

/-- The ring buffer after feeding a sequence from empty. -/
theorem feed_eq (xs : List Movement) :
    feed xs = xs.drop (xs.length - HISTORY_SIZE) := by
  have h := foldl_bufAdd_eq xs [] (by decide)
  rw [List.nil_append] at h
  exact h

/-- Running only `add` calls folds the samples into the strategy. -/
theorem runCalls_adds_strat (xs : List Movement) (t : Tracker) :
    (runCalls t (xs.map Call.add)).strat = xs.foldl stratAdd t.strat := by
  induction xs generalizing t with
  | nil => rfl
  | cons m xs ih => exact ih (t.addMovement m)

/-- Folding samples into a buffered strategy folds them into its ring
buffer. -/
theorem foldl_stratAdd_buffered (xs : List Movement) (k : BufKind) :
    ∀ h : List Movement,
      xs.foldl stratAdd (StratState.buffered k h) =
        StratState.buffered k (xs.foldl bufAdd h) := by
  induction xs with
  | nil => intro h; rfl
  | cons m xs ih => intro h; exact ih (bufAdd h m)

/-- The newest retained time of an extended buffer is that of its
nonempty recent part. -/
theorem newestTime_append (o r : List Movement) (hr : r ≠ []) :
    newestTime (o ++ r) = newestTime r := by
  unfold newestTime
  rw [List.getLastD_eq_getLast?, List.getLastD_eq_getLast?, List.getLast?_append,
    List.getLast?_eq_getLast r hr]
  rfl

/-- Samples beyond the horizon contribute nothing to the gather. -/
theorem gatherAt_append_old (hor T : Int) (o r : List Movement) (id : ℕ)
    (hold : ∀ m ∈ o, hor < T - m.eventTime) :
    gatherAt hor T (o ++ r) id = gatherAt hor T r id := by
  unfold gatherAt
  rw [List.filter_append]
  have hnil : o.filter
      (fun m => m.idBits.testBit id && decide (T - m.eventTime ≤ hor)) = [] := by
    refine List.filter_eq_nil_iff.2 (fun m hm => ?_)
    simp only [Bool.and_eq_true, decide_eq_true_eq, not_and]
    intro _ hle
    have := hold m hm
    omega
  rw [hnil, List.nil_append]

/-- Old samples beyond the horizon do not change a buffered strategy's
estimate — the buffer fed with them agrees with the buffer fed without
them. -/
theorem bufGetEstimator_drop_old (k : BufKind) (olds recents : List Movement)
    (id : ℕ) (hr : recents ≠ [])
    (hold : ∀ m ∈ olds,
      horizonOf k < newestTime (feed (olds ++ recents)) - m.eventTime) :
    bufGetEstimator k (feed (olds ++ recents)) id =
      bufGetEstimator k (feed recents) id := by
  by_cases hlen : HISTORY_SIZE ≤ recents.length
  · have hfe : feed (olds ++ recents) = feed recents := by
      rw [feed_eq, feed_eq, List.length_append,
        show olds.length + recents.length - HISTORY_SIZE =
          olds.length + (recents.length - HISTORY_SIZE) from by omega,
        List.drop_append]
    rw [hfe]
  · have hfeedr : feed recents = recents := by
      rw [feed_eq, Nat.sub_eq_zero_of_le (by omega), List.drop_zero]
    have hsplit : feed (olds ++ recents) =
        olds.drop (olds.length + recents.length - HISTORY_SIZE) ++ recents := by
      rw [feed_eq, List.length_append, List.drop_append_of_le_length (by omega)]
    have hnew : newestTime
        (olds.drop (olds.length + recents.length - HISTORY_SIZE) ++ recents) =
        newestTime recents :=
      newestTime_append _ recents hr
    unfold bufGetEstimator bufGather
    rw [hsplit, hfeedr, hnew]
    rw [gatherAt_append_old (horizonOf k) (newestTime recents) _ recents id
      (fun m hm => by
        have hmo : m ∈ olds := List.mem_of_mem_drop hm
        have h := hold m hmo
        rw [hsplit, hnew] at h
        exact h)]

/-- `getEstimator` of the coordinator depends only on the strategy
state. -/
theorem getEstimator_congr {t t' : Tracker} (h : t.strat = t'.strat) (id : ℕ) :
    t.getEstimator id = t'.getEstimator id := by
  unfold Tracker.getEstimator
  rw [h]

/-- Claim C4: for every buffered strategy (least-squares with any
configuration, legacy, impulse), samples older than the strategy's
horizon measured backward from the newest retained sample do not
influence `getEstimator`: the call sequence with the too-old samples
omitted produces the identical result, even when they still occupy
buffer slots. -/
theorem horizon_excludes_old_samples (s : Strategy) (k : BufKind)
    (hk : createStrategy s = StratState.buffered k [])
    (olds recents : List Movement) (id : ℕ) (hr : recents ≠ [])
    (hold : ∀ m ∈ olds,
      horizonOf k < newestTime (feed (olds ++ recents)) - m.eventTime) :
    (runCalls (Tracker.init s) ((olds ++ recents).map Call.add)).getEstimator id =
      (runCalls (Tracker.init s) (recents.map Call.add)).getEstimator id := by
  have hstrat : ∀ xs : List Movement,
      (runCalls (Tracker.init s) (xs.map Call.add)).strat =
        StratState.buffered k (feed xs) := fun xs => by
    rw [runCalls_adds_strat]
    show xs.foldl stratAdd (createStrategy s) = _
    rw [hk, foldl_stratAdd_buffered]
    rfl
  unfold Tracker.getEstimator
  rw [hstrat (olds ++ recents), hstrat recents]
  show (match bufGetEstimator k (feed (olds ++ recents)) id with
    | some e => (true, e) | none => (false, Estimator.cleared)) = _
  rw [bufGetEstimator_drop_old k olds recents id hr hold]
  rfl

/-- Witness for C4 at a concrete input: a legacy-strategy sample 300 ms
older than the newest retained sample is irrelevant to the query. -/
theorem horizon_excludes_old_samples_witness :
    (runCalls (Tracker.init Strategy.LEGACY)
        ((([(⟨0, 1, [⟨9, 9⟩]⟩ : Movement)] ++
          [(⟨300000000, 1, [⟨1, 2⟩]⟩ : Movement)])).map Call.add)).getEstimator 0 =
      (runCalls (Tracker.init Strategy.LEGACY)
        (([(⟨300000000, 1, [⟨1, 2⟩]⟩ : Movement)]).map Call.add)).getEstimator 0 :=
  horizon_excludes_old_samples Strategy.LEGACY BufKind.legacy rfl
    [(⟨0, 1, [⟨9, 9⟩]⟩ : Movement)] [(⟨300000000, 1, [⟨1, 2⟩]⟩ : Movement)] 0
    (by with_unfolding_all decide)
    (by with_unfolding_all decide)

/-- Clearing ids a pointer does not belong to leaves its packed
position readable and unchanged. -/
theorem clearMovement_getPosition (S : ℕ) (m : Movement) (id : ℕ) (h32 : id < 32)
    (hbit : (Nat.ldiff m.idBits S).testBit id = true) :
    (clearMovement S m).getPosition id = m.getPosition id := by
  show ((setBits (Nat.ldiff m.idBits S)).map (fun i => m.getPosition i)).getD
    (indexOfBit (Nat.ldiff m.idBits S) id) ⟨0, 0⟩ = m.getPosition id
  exact setBits_map_getD _ id _ h32 hbit

/-- Clearing other pointers does not change what is gathered for a
pointer outside the cleared set. -/
theorem gatherAt_clearPointers (hor T : Int) (h : List Movement) (S id : ℕ)
    (h32 : id < 32) (hid : S.testBit id = false) :
    gatherAt hor T (bufClearPointers S h) id = gatherAt hor T h id := by
  unfold gatherAt bufClearPointers
  rw [List.filter_map]
  have hpred : ((fun m => m.idBits.testBit id && decide (T - m.eventTime ≤ hor)) ∘
      clearMovement S) =
      (fun m => m.idBits.testBit id && decide (T - m.eventTime ≤ hor)) := by
    funext m
    show ((Nat.ldiff m.idBits S).testBit id && decide (T - m.eventTime ≤ hor)) = _
    rw [Nat.testBit_ldiff, hid]
    simp
  rw [hpred, List.map_map]
  apply List.map_congr_left
  intro m hm
  have hbit : m.idBits.testBit id = true := by
    have h2 := (List.mem_filter.1 hm).2
    rw [Bool.and_eq_true] at h2
    exact h2.1
  have hbit' : (Nat.ldiff m.idBits S).testBit id = true := by
    rw [Nat.testBit_ldiff, hid, hbit]
    rfl
  show ((clearMovement S m).eventTime, (clearMovement S m).getPosition id) =
    (m.eventTime, m.getPosition id)
  rw [clearMovement_getPosition S m id h32 hbit']
  rfl

/-- Clearing pointers keeps every buffered record's event time, so the
newest retained time is unchanged. -/
theorem newestTime_clearPointers (S : ℕ) (h : List Movement) :
    newestTime (bufClearPointers S h) = newestTime h := by
  unfold newestTime bufClearPointers
  rw [List.getLastD_eq_getLast?, List.getLastD_eq_getLast?, List.getLast?_map]
  cases h.getLast? <;> rfl

/-- Frame property of the buffered strategies' `clearPointers`. -/
theorem bufGetEstimator_clearPointers (k : BufKind) (h : List Movement)
    (S id : ℕ) (h32 : id < 32) (hid : S.testBit id = false) :
    bufGetEstimator k (bufClearPointers S h) id = bufGetEstimator k h id := by
  unfold bufGetEstimator bufGather
  rw [newestTime_clearPointers, gatherAt_clearPointers _ _ _ _ _ h32 hid]

/-- Frame property of the integrating strategy's `clearPointers`. -/
theorem lookupState_filter_clear (sts : List (ℕ × IntState)) (S id : ℕ)
    (hid : S.testBit id = false) :
    lookupState (sts.filter (fun p => !S.testBit p.1)) id = lookupState sts id := by
  unfold lookupState
  rw [List.find?_filter]
  have hfun : (fun a : ℕ × IntState =>
      decide ((!S.testBit a.1) = true ∧ decide (a.1 = id) = true)) =
      (fun p : ℕ × IntState => decide (p.1 = id)) := by
    funext p
    by_cases hp : p.1 = id
    · simp [hp, hid]
    · simp [hp]
  rw [hfun]

/-- `clearPointers` leaves the strategy's answer for a pointer outside
the cleared set untouched. -/
theorem stratClearPointers_frame (st : StratState) (S id : ℕ) (h32 : id < 32)
    (hid : S.testBit id = false) :
    stratGetEstimator (stratClearPointers st S) id = stratGetEstimator st id := by
  cases st with
  | buffered k h =>
    exact bufGetEstimator_clearPointers k h S id h32 hid
  | integ ua sts =>
    show integGetEstimator ua _ id = integGetEstimator ua sts id
    unfold integGetEstimator
    rw [lookupState_filter_clear sts S id hid]

/-- A strategy holding no trace of a pointer fails its query. -/
theorem stratNoDataFor_getEstimator {id : ℕ} {st : StratState}
    (h : stratNoDataFor id st) : stratGetEstimator st id = none := by
  apply stratGetEstimator_eq_none
  cases st with
  | buffered k hist =>
    show bufGather k hist id = []
    unfold bufGather gatherAt
    rw [List.filter_eq_nil_iff.2 (fun m hm => by
      simp only [Bool.and_eq_true, decide_eq_true_eq, not_and]
      intro hbit
      rw [h m hm] at hbit
      exact absurd hbit (by simp))]
    rfl
  | integ ua sts =>
    show lookupState sts id = none
    unfold lookupState
    rw [List.find?_eq_none.2 (fun p hp => by
      simp only [decide_eq_true_eq]
      exact h p hp)]
    rfl

/-- Upserting a different pointer preserves the no-trace invariant. -/
theorem upsertState_keys_ne (sts : List (ℕ × IntState)) (j : ℕ) (s : IntState)
    (id : ℕ) (hj : j ≠ id) (h : ∀ p ∈ sts, p.1 ≠ id) :
    ∀ p ∈ upsertState sts j s, p.1 ≠ id := by
  unfold upsertState
  split
  · intro p hp
    rcases List.mem_map.1 hp with ⟨q, hq, hgq⟩
    by_cases hq1 : q.1 = j
    · rw [if_pos hq1] at hgq
      rw [← hgq]
      exact hj
    · rw [if_neg hq1] at hgq
      rw [← hgq]
      exact h q hq
  · intro p hp
    rcases List.mem_cons.1 hp with hp | hp
    · rw [hp]
      exact hj
    · exact h p hp

/-- Folding upserts of other pointers preserves the no-trace invariant. -/
theorem foldl_upsert_keys_ne (f : List (ℕ × IntState) → ℕ → IntState)
    (ids : List ℕ) (sts : List (ℕ × IntState)) (id : ℕ)
    (hids : id ∉ ids) (h : ∀ p ∈ sts, p.1 ≠ id) :
    ∀ p ∈ ids.foldl (fun acc j => upsertState acc j (f acc j)) sts, p.1 ≠ id := by
  induction ids generalizing sts with
  | nil => exact h
  | cons a l ih =>
    exact ih _ (fun hmem => hids (List.mem_cons_of_mem a hmem))
      (upsertState_keys_ne sts a (f sts a) id
        (fun ha => hids (ha ▸ List.mem_cons_self a l)) h)

/-- Adding a movement that does not mention a pointer preserves the
no-trace invariant. -/
theorem stratNoDataFor_add {id : ℕ} {st : StratState} (m : Movement)
    (h : stratNoDataFor id st) (hm : m.idBits.testBit id = false) :
    stratNoDataFor id (stratAdd st m) := by
  cases st with
  | buffered k hist =>
    intro m' hm'
    have hsub : m' ∈ hist ++ [m] := by
      have hss : bufAdd hist m ⊆ hist ++ [m] := by
        show (if HISTORY_SIZE < (hist ++ [m]).length then
          (hist ++ [m]).drop ((hist ++ [m]).length - HISTORY_SIZE)
          else (hist ++ [m])) ⊆ hist ++ [m]
        split
        · exact (List.drop_sublist _ _).subset
        · exact fun a ha => ha
      exact hss hm'
    rcases List.mem_append.1 hsub with hmem | hmem
    · exact h m' hmem
    · rw [List.mem_singleton.1 hmem]
      exact hm
  | integ ua sts =>
    refine foldl_upsert_keys_ne _ (setBits m.idBits) sts id (fun hmem => ?_) h
    have := (List.mem_filter.1 hmem).2
    rw [hm] at this
    exact absurd this (by simp)

/-- Clearing pointers preserves the no-trace invariant. -/
theorem stratNoDataFor_clearPointers {id : ℕ} {st : StratState} (S : ℕ)
    (h : stratNoDataFor id st) :
    stratNoDataFor id (stratClearPointers st S) := by
  cases st with
  | buffered k hist =>
    intro m' hm'
    rcases List.mem_map.1 hm' with ⟨m, hm, hcm⟩
    rw [← hcm]
    show (Nat.ldiff m.idBits S).testBit id = false
    rw [Nat.testBit_ldiff, h m hm]
    rfl
  | integ ua sts =>
    intro p hp
    exact h p (List.mem_filter.1 hp).1

/-- `clearPointers` establishes the no-trace invariant for every cleared
pointer. -/
theorem stratClearPointers_noDataFor (st : StratState) (S id : ℕ)
    (hid : S.testBit id = true) :
    stratNoDataFor id (stratClearPointers st S) := by
  cases st with
  | buffered k hist =>
    intro m' hm'
    rcases List.mem_map.1 hm' with ⟨m, _, hcm⟩
    rw [← hcm]
    show (Nat.ldiff m.idBits S).testBit id = false
    rw [Nat.testBit_ldiff, hid]
    simp
  | integ ua sts =>
    intro p hp
    intro hpid
    have := (List.mem_filter.1 hp).2
    rw [hpid, hid] at this
    exact absurd this (by simp)

/-- The no-trace invariant survives any call sequence that avoids the
pointer. -/
theorem stratNoDataFor_runCalls {id : ℕ} (t : Tracker) (cs : List Call)
    (h : stratNoDataFor id t.strat) (hcs : ∀ c ∈ cs, callAvoids id c) :
    stratNoDataFor id (runCalls t cs).strat := by
  induction cs generalizing t with
  | nil => exact h
  | cons c l ih =>
    refine ih (applyCall t c) ?_ (fun c' hc' => hcs c' (List.mem_cons_of_mem c hc'))
    have hc := hcs c (List.mem_cons_self c l)
    cases c with
    | add m => exact stratNoDataFor_add m h hc
    | clear =>
      show stratNoDataFor id (stratClear t.strat)
      cases ht : t.strat with
      | buffered k hist =>
        intro m hm
        cases hm
      | integ ua sts =>
        intro p hp
        cases hp
    | clearPointers ids => exact stratNoDataFor_clearPointers ids h

/-- `getVelocity` of the coordinator depends only on `getEstimator`. -/
theorem getVelocity_congr {t t' : Tracker} (id : ℕ)
    (h : t.getEstimator id = t'.getEstimator id) :
    t.getVelocity id = t'.getVelocity id := by
  unfold Tracker.getVelocity
  rw [h]

/-- Claim C6: `clearPointers(S)` leaves the observable `getEstimator`
and `getVelocity` results of every pointer outside `S` identical, while
every pointer inside `S` subsequently fails with success `false` (and
the cleared estimator) until a movement mentioning it is added again. -/
theorem clearPointers_frame_effect (t : Tracker) (S id : ℕ) (h32 : id < 32) :
    (S.testBit id = false →
      (t.clearPointers S).getEstimator id = t.getEstimator id ∧
      (t.clearPointers S).getVelocity id = t.getVelocity id) ∧
    (S.testBit id = true → ∀ cs : List Call, (∀ c ∈ cs, callAvoids id c) →
      (runCalls (t.clearPointers S) cs).getEstimator id =
        (false, Estimator.cleared)) := by
  constructor
  · intro hid
    have he : (t.clearPointers S).getEstimator id = t.getEstimator id := by
      unfold Tracker.getEstimator
      rw [show (t.clearPointers S).strat = stratClearPointers t.strat S from rfl,
        stratClearPointers_frame t.strat S id h32 hid]
    exact ⟨he, getVelocity_congr id he⟩
  · intro hid cs hcs
    apply getEstimator_eq_of_none
    apply stratNoDataFor_getEstimator
    exact stratNoDataFor_runCalls (t.clearPointers S) cs
      (stratClearPointers_noDataFor t.strat S id hid) hcs

/-- The cross term of the least-squares expansion vanishes when the
residual is orthogonal to every design column. -/
theorem cross_term_zero {m p : ℕ} (A : Fin m → ℕ → ℚ) (r : Fin m → ℚ) (γ : ℕ → ℚ)
    (hzero : ∀ k ∈ Finset.range p, (∑ i : Fin m, A i k * r i) = 0) :
    (∑ i : Fin m, r i * (∑ k ∈ Finset.range p, A i k * γ k)) = 0 := by
  have hstep : ∀ i : Fin m, r i * (∑ k ∈ Finset.range p, A i k * γ k) =
      ∑ k ∈ Finset.range p, γ k * (A i k * r i) := by
    intro i
    rw [Finset.mul_sum]
    exact Finset.sum_congr rfl (fun k _ => by ring)
  rw [Finset.sum_congr rfl (fun i _ => hstep i), Finset.sum_comm]
  apply Finset.sum_eq_zero
  intro k hk
  rw [← Finset.mul_sum, hzero k hk, mul_zero]

/-- Projection inequality: a solution of the normal equations minimises
the residual sum of squares over all candidate coefficient vectors. -/
theorem sserr_le_of_normal {m p : ℕ} (A : Fin m → ℕ → ℚ) (b : Fin m → ℚ)
    (c u : List ℚ)
    (h : ∀ j ∈ Finset.range p, (∑ i : Fin m, A i j * (predf p A c i - b i)) = 0) :
    sserrOf p A b c ≤ ∑ i : Fin m, (b i - predf p A u i) ^ 2 := by
  have hzero : ∀ k ∈ Finset.range p,
      (∑ i : Fin m, A i k * (b i - predf p A c i)) = 0 := by
    intro k hk
    have h1 : (∑ i : Fin m, A i k * (b i - predf p A c i)) +
        (∑ i : Fin m, A i k * (predf p A c i - b i)) = 0 := by
      rw [← Finset.sum_add_distrib]
      exact Finset.sum_eq_zero (fun i _ => by ring)
    have h2 := h k hk
    linarith
  have hdiff : ∀ i : Fin m, predf p A c i - predf p A u i =
      ∑ k ∈ Finset.range p, A i k * (c.getD k 0 - u.getD k 0) := by
    intro i
    unfold predf
    rw [← Finset.sum_sub_distrib]
    exact Finset.sum_congr rfl (fun k _ => by ring)
  have hcross2 : (∑ i : Fin m,
      (b i - predf p A c i) * (predf p A c i - predf p A u i)) = 0 := by
    rw [Finset.sum_congr rfl (fun i _ => by rw [hdiff i])]
    exact cross_term_zero A (fun i => b i - predf p A c i)
      (fun k => c.getD k 0 - u.getD k 0) hzero
  have hexpand : (∑ i : Fin m, (b i - predf p A u i) ^ 2) =
      sserrOf p A b c +
      (2 * (∑ i : Fin m, (b i - predf p A c i) * (predf p A c i - predf p A u i)) +
       ∑ i : Fin m, (predf p A c i - predf p A u i) ^ 2) := by
    unfold sserrOf
    rw [Finset.mul_sum, ← Finset.sum_add_distrib, ← Finset.sum_add_distrib]
    exact Finset.sum_congr rfl (fun i _ => by ring)
  have hpos : 0 ≤ ∑ i : Fin m, (predf p A c i - predf p A u i) ^ 2 :=
    Finset.sum_nonneg (fun i _ => sq_nonneg _)
  rw [hexpand, hcross2]
  linarith

/-- A verified normal-equation solution explains at least as much
variance as the constant fit at the mean: `sserr ≤ sstot` (the design's
column 0 is the weighted constant column). -/
theorem sserr_le_sstot {p : ℕ} (hp : 1 ≤ p) (T : Int) (wts : List ℚ)
    (rel : List (Int × Position)) (v : Fin rel.length → ℚ) (c : List ℚ)
    (h : ∀ j ∈ Finset.range p, (∑ i : Fin rel.length,
      designA T wts rel i j *
        (predf p (designA T wts rel) c i - target wts v i)) = 0) :
    sserrOf p (designA T wts rel) (target wts v) c ≤ sstotOf wts v := by
  have hmain := sserr_le_of_normal (designA T wts rel) (target wts v) c
    [(∑ j : Fin rel.length, v j) / (rel.length : ℚ)] h
  have hconst : ∀ i : Fin rel.length,
      predf p (designA T wts rel)
        [(∑ j : Fin rel.length, v j) / (rel.length : ℚ)] i =
      wgt wts i * ((∑ j : Fin rel.length, v j) / (rel.length : ℚ)) := by
    intro i
    unfold predf
    rw [Finset.sum_eq_single_of_mem 0 (Finset.mem_range.2 hp)]
    · show designA T wts rel i 0 * _ = _
      unfold designA
      rw [pow_zero, mul_one]
      rfl
    · intro k _ hk
      have hget : ([(∑ j : Fin rel.length, v j) / (rel.length : ℚ)] : List ℚ).getD k 0
          = 0 := by
        match k, hk with
        | k + 1, _ => rfl
      rw [hget, mul_zero]
  have hsst : (∑ i : Fin rel.length, (target wts v i -
      predf p (designA T wts rel)
        [(∑ j : Fin rel.length, v j) / (rel.length : ℚ)] i) ^ 2) =
      sstotOf wts v := by
    unfold sstotOf
    refine Finset.sum_congr rfl (fun i _ => ?_)
    rw [hconst i]
    unfold target wgt
    ring
  rw [hsst] at hmain
  exact hmain

/-- The coefficient of determination of a verified fit lies in [0, 1]. -/
theorem r2Val_mem (sserr sstot : ℚ) (h0 : 0 ≤ sserr) (hle : sserr ≤ sstot) :
    0 ≤ r2Val sserr sstot ∧ r2Val sserr sstot ≤ 1 := by
  unfold r2Val
  split
  · exact ⟨zero_le_one, le_refl 1⟩
  · rename_i hne
    have hpos : 0 < sstot := lt_of_le_of_ne (le_trans h0 hle) (Ne.symm hne)
    constructor
    · have hd1 : sserr / sstot ≤ 1 := (div_le_one hpos).2 hle
      linarith
    · have hd0 : 0 ≤ sserr / sstot := div_nonneg h0 (le_of_lt hpos)
      linarith

/-- The residual sum of squares is nonnegative. -/
theorem sserrOf_nonneg {m : ℕ} (p : ℕ) (A : Fin m → ℕ → ℚ) (b : Fin m → ℚ)
    (c : List ℚ) : 0 ≤ sserrOf p A b c :=
  Finset.sum_nonneg (fun _ _ => sq_nonneg _)

/-- An accepted fit attempt of degree `d` yields exactly degree `d`,
time base `T` and a confidence inside [0, 1]. -/
theorem attemptFit_some {d : ℕ} {T : Int} {wts : List ℚ}
    {rel : List (Int × Position)} {e : Estimator}
    (h : attemptFit d T wts rel = some e) :
    e.degree = d ∧ e.time = T ∧ 0 ≤ e.confidence ∧ e.confidence ≤ 1 := by
  unfold attemptFit at h
  split at h
  · split at h
    · rename_i cx cy _ _ hchk
      rw [Bool.and_eq_true] at hchk
      have hchk1 := hchk.1
      have hchk2 := hchk.2
      unfold residChk at hchk1 hchk2
      have hx := of_decide_eq_true hchk1
      have hy := of_decide_eq_true hchk2
      have hbx := r2Val_mem _ _ (sserrOf_nonneg _ _ _ cx)
        (sserr_le_sstot (Nat.succ_le_succ (Nat.zero_le d)) T wts rel (xsOf rel) cx hx)
      have hby := r2Val_mem _ _ (sserrOf_nonneg _ _ _ cy)
        (sserr_le_sstot (Nat.succ_le_succ (Nat.zero_le d)) T wts rel (ysOf rel) cy hy)
      injection h with he
      subst he
      exact ⟨rfl, rfl, le_max_of_le_left hbx.1, max_le hbx.2 hby.2⟩
    · exact Option.noConfusion h
  · exact Option.noConfusion h

/-- Membership in the fallback degree ladder. -/
theorem degList_mem {eff d : ℕ} (h : d ∈ degList eff) : 1 ≤ d ∧ d ≤ eff := by
  unfold degList at h
  rcases List.mem_map.1 h with ⟨i, hi, rfl⟩
  have := List.mem_range.1 (List.mem_reverse.1 hi)
  omega

/-- The fallback ladder starts at the effective degree. -/
theorem degList_succ (n : ℕ) : degList (n + 1) = (n + 1) :: degList n := by
  unfold degList
  rw [List.range_succ, List.reverse_append]
  rfl

/-- The least-squares strategy never fails once a usable sample exists. -/
theorem lsqEstFrom_ne_nil {cfg : ℕ} {wm : Weighting} {T : Int}
    {rel : List (Int × Position)} (hne : rel ≠ []) :
    ∃ e, lsqEstFrom cfg wm T rel = some e := by
  unfold lsqEstFrom
  match rel, hne with
  | x :: xs, _ =>
    cases hfs : (degList (effDeg cfg (x :: xs).length)).findSome?
        (fun d => attemptFit d T (chooseWeights wm (x :: xs)) (x :: xs)) with
    | some e => exact ⟨e, rfl⟩
    | none => exact ⟨degree0Est T (x :: xs), rfl⟩

/-- Case analysis of a successful least-squares estimate: either the
fallback ladder accepted some fit, or every attempt was degenerate and
the degree-0 estimate is returned. -/
theorem lsqEstFrom_cases {cfg : ℕ} {wm : Weighting} {T : Int}
    {rel : List (Int × Position)} {e : Estimator}
    (h : lsqEstFrom cfg wm T rel = some e) :
    ((degList (effDeg cfg rel.length)).findSome?
        (fun d => attemptFit d T (chooseWeights wm rel) rel) = some e) ∨
    (((degList (effDeg cfg rel.length)).findSome?
        (fun d => attemptFit d T (chooseWeights wm rel) rel) = none) ∧
      e = degree0Est T rel) := by
  unfold lsqEstFrom at h
  match rel, h with
  | x :: xs, h =>
    have h' : (match (degList (effDeg cfg (x :: xs).length)).findSome?
        (fun d => attemptFit d T (chooseWeights wm (x :: xs)) (x :: xs)) with
      | some e' => some e'
      | none => some (degree0Est T (x :: xs))) = some e := h
    revert h'
    cases (degList (effDeg cfg (x :: xs).length)).findSome?
        (fun d => attemptFit d T (chooseWeights wm (x :: xs)) (x :: xs)) with
    | some e' =>
      intro h'
      exact Or.inl h'
    | none =>
      intro h'
      injection h' with he
      exact Or.inr ⟨rfl, he.symm⟩

/-- Every entry of the zero coefficient array is zero. -/
theorem replicate5_getD (k : ℕ) : (List.replicate 5 (0 : ℚ)).getD k 0 = 0 := by
  rcases k with _ | _ | _ | _ | _ | k <;> rfl

/-- The cleared estimator satisfies the invariant. -/
theorem cleared_ok : estimatorOk Estimator.cleared := by
  refine ⟨le_refl 0, zero_le_one, fun _ => ⟨rfl, fun k _ => ⟨?_, ?_⟩⟩⟩ <;>
    exact replicate5_getD k

/-- The degree-0 estimate carries no coefficient of order ≥ 1. -/
theorem degree0Est_coeff (T : Int) (rel : List (Int × Position)) (k : ℕ)
    (hk : 1 ≤ k) :
    (degree0Est T rel).xCoeff.getD k 0 = 0 ∧
    (degree0Est T rel).yCoeff.getD k 0 = 0 := by
  cases k with
  | zero => omega
  | succ k =>
    constructor <;>
      (show ([0, 0, 0, 0] : List ℚ).getD k 0 = 0; rcases k with _ | _ | _ | _ | k <;> rfl)

/-- Successful least-squares estimates satisfy the invariant. -/
theorem lsqEstFrom_ok {cfg : ℕ} {wm : Weighting} {T : Int}
    {rel : List (Int × Position)} {e : Estimator}
    (h : lsqEstFrom cfg wm T rel = some e) : estimatorOk e := by
  rcases lsqEstFrom_cases h with hfs | ⟨_, he⟩
  · rcases List.exists_of_findSome?_eq_some hfs with ⟨d, hd, hfit⟩
    have hprops := attemptFit_some hfit
    have hd1 := (degList_mem hd).1
    refine ⟨hprops.2.2.1, hprops.2.2.2, fun hdeg => ?_⟩
    rw [hprops.1] at hdeg
    omega
  · subst he
    exact ⟨le_refl 0, zero_le_one, fun _ => ⟨rfl, fun k hk => degree0Est_coeff T rel k hk⟩⟩

/-- Successful legacy estimates satisfy the invariant. -/
theorem legacyEstFrom_ok {T : Int} {rel : List (Int × Position)} {e : Estimator}
    (h : legacyEstFrom T rel = some e) : estimatorOk e := by
  unfold legacyEstFrom at h
  match rel, h with
  | x :: xs, h =>
    injection h with he
    subst he
    refine ⟨?_, ?_, fun hdeg => absurd hdeg (by simp)⟩
    · show (0 : ℚ) ≤ if (legacyQPairs (x :: xs)).length = 0 then 0 else 1
      split <;> norm_num
    · show (if (legacyQPairs (x :: xs)).length = 0 then (0 : ℚ) else 1) ≤ 1
      split <;> norm_num

/-- Successful impulse estimates satisfy the invariant. -/
theorem impulseEstFrom_ok {T : Int} {rel : List (Int × Position)} {e : Estimator}
    (h : impulseEstFrom T rel = some e) : estimatorOk e := by
  unfold impulseEstFrom at h
  split at h
  · exact Option.noConfusion h
  · injection h with he
    subst he
    exact ⟨zero_le_one, le_refl 1, fun hdeg => absurd hdeg (by simp)⟩

/-- Successful integrating estimates satisfy the invariant. -/
theorem integGetEstimator_ok {ua : Bool} {sts : List (ℕ × IntState)} {id : ℕ}
    {e : Estimator} (h : integGetEstimator ua sts id = some e) : estimatorOk e := by
  unfold integGetEstimator at h
  split at h
  · exact Option.noConfusion h
  · injection h with he
    subst he
    refine ⟨zero_le_one, le_refl 1, fun hdeg => absurd hdeg ?_⟩
    show ¬(if ua then 2 else 1) = 0
    cases ua <;> simp

/-- Every estimator the coordinator ever returns (from any strategy
state, successful or not) satisfies the invariant. -/
theorem estimator_invariant_any (t : Tracker) (id : ℕ) :
    estimatorOk (t.getEstimator id).2 := by
  unfold Tracker.getEstimator
  cases hq : stratGetEstimator t.strat id with
  | none => exact cleared_ok
  | some e =>
    show estimatorOk e
    cases hst : t.strat with
    | buffered k hist =>
      rw [hst] at hq
      cases k with
      | lsq cfg wm => exact lsqEstFrom_ok hq
      | legacy => exact legacyEstFrom_ok hq
      | impulse => exact impulseEstFrom_ok hq
    | integ ua sts =>
      rw [hst] at hq
      exact integGetEstimator_ok hq

/-- Claim C3 (amended): every estimator returned by `getEstimator`, for
any strategy and any call sequence, has confidence in [0, 1]; and if its
degree is 0 then its confidence is 0 and all its coefficients of order 1
or higher are zero.  (The original claim's "all coefficients zero" fails
for the degree-0 least-squares estimate, which carries the most recent
position in its constant term — see the counterexample.) -/
theorem estimator_invariant_amended (s : Strategy) (cs : List Call) (id : ℕ) :
    estimatorOk ((runCalls (Tracker.init s) cs).getEstimator id).2 :=
  estimator_invariant_any _ id

/-- Witness for the amended C3 at a concrete input: a fresh tracker's
(failing) estimator has degree 0, hence confidence 0 by the theorem. -/
theorem estimator_invariant_amended_witness :
    ((runCalls (Tracker.init Strategy.LSQ2) []).getEstimator 0).2.confidence = 0 :=
  ((estimator_invariant_amended Strategy.LSQ2 [] 0).2.2
    (by with_unfolding_all decide)).1

/-- Counterexample to C3 as stated: after a single movement of pointer 0
at position (5, 7), the least-squares tracker successfully returns a
degree-0 estimator whose constant x coefficient is 5, not 0 — so
"degree 0 implies all coefficients zero" fails on a returned estimator. -/
theorem estimator_invariant_counterexample :
    (((Tracker.init Strategy.LSQ2).addMovement ⟨0, 1, [⟨5, 7⟩]⟩).getEstimator 0).1 =
      true ∧
    (((Tracker.init Strategy.LSQ2).addMovement ⟨0, 1, [⟨5, 7⟩]⟩).getEstimator
      0).2.degree = 0 ∧
    ¬((((Tracker.init Strategy.LSQ2).addMovement ⟨0, 1, [⟨5, 7⟩]⟩).getEstimator
      0).2.xCoeff.getD 0 0 = 0) := by
  refine ⟨?_, ?_, ?_⟩ <;> with_unfolding_all decide

/-- Claim C5: with at least one usable sample the least-squares
strategy always succeeds (no crash), the returned degree never exceeds
the effective degree `min(configured degree, n - 1)` clamped to
`[0, MAX_DEGREE]`, the fit at the effective degree is the result
whenever that attempt is non-degenerate, and when the effective degree
is 0 the result is exactly the most recent position with confidence 0
(`degree0Est`); a degenerate design only lowers the resulting degree,
down to 0. -/
theorem lsq_effective_degree (cfg : ℕ) (wm : Weighting) (hist : List Movement)
    (id : ℕ) (hne : bufGather (BufKind.lsq cfg wm) hist id ≠ []) :
    ∃ e, bufGetEstimator (BufKind.lsq cfg wm) hist id = some e ∧
      e.degree ≤ effDeg cfg (bufGather (BufKind.lsq cfg wm) hist id).length ∧
      effDeg cfg (bufGather (BufKind.lsq cfg wm) hist id).length ≤ MAX_DEGREE ∧
      (1 ≤ effDeg cfg (bufGather (BufKind.lsq cfg wm) hist id).length →
        ∀ e', attemptFit (effDeg cfg (bufGather (BufKind.lsq cfg wm) hist id).length)
          (newestTime hist)
          (chooseWeights wm (bufGather (BufKind.lsq cfg wm) hist id))
          (bufGather (BufKind.lsq cfg wm) hist id) = some e' → e = e') ∧
      (effDeg cfg (bufGather (BufKind.lsq cfg wm) hist id).length = 0 →
        e = degree0Est (newestTime hist) (bufGather (BufKind.lsq cfg wm) hist id)) := by
  obtain ⟨e, he⟩ := @lsqEstFrom_ne_nil cfg wm (newestTime hist)
    (bufGather (BufKind.lsq cfg wm) hist id) hne
  refine ⟨e, he, ?_, ?_, ?_, ?_⟩
  · rcases lsqEstFrom_cases he with hfs | ⟨_, hdeg0⟩
    · rcases List.exists_of_findSome?_eq_some hfs with ⟨d, hd, hfit⟩
      rw [(attemptFit_some hfit).1]
      exact (degList_mem hd).2
    · rw [hdeg0]
      exact Nat.zero_le _
  · show min (min cfg ((bufGather (BufKind.lsq cfg wm) hist id).length - 1))
      MAX_DEGREE ≤ MAX_DEGREE
    exact min_le_right _ _
  · intro heff1 e' hfit'
    rcases lsqEstFrom_cases he with hfs | ⟨hfs, _⟩
    · obtain ⟨n, hn⟩ : ∃ n,
          effDeg cfg (bufGather (BufKind.lsq cfg wm) hist id).length = n + 1 :=
        ⟨effDeg cfg (bufGather (BufKind.lsq cfg wm) hist id).length - 1, by omega⟩
      rw [hn, degList_succ, List.findSome?_cons] at hfs
      rw [hn] at hfit'
      rw [hfit'] at hfs
      have h' : some e' = some e := hfs
      injection h' with hee
      exact hee.symm
    · exfalso
      obtain ⟨n, hn⟩ : ∃ n,
          effDeg cfg (bufGather (BufKind.lsq cfg wm) hist id).length = n + 1 :=
        ⟨effDeg cfg (bufGather (BufKind.lsq cfg wm) hist id).length - 1, by omega⟩
      have hmem : effDeg cfg (bufGather (BufKind.lsq cfg wm) hist id).length ∈
          degList (effDeg cfg (bufGather (BufKind.lsq cfg wm) hist id).length) := by
        rw [hn, degList_succ]
        exact List.mem_cons_self _ _
      have hnone := List.findSome?_eq_none_iff.1 hfs _ hmem
      rw [hnone] at hfit'
      exact Option.noConfusion hfit'
  · intro heff0
    rcases lsqEstFrom_cases he with hfs | ⟨_, hdeg0⟩
    · rcases List.exists_of_findSome?_eq_some hfs with ⟨d, hd, _⟩
      have hdm := degList_mem hd
      omega
    · exact hdeg0

/-- Witness for C5 at a concrete input: two usable samples with a
configured degree of 2 give effective degree 1 and a successful
estimate, with every property of the theorem instantiated. -/
theorem lsq_effective_degree_witness :
    ∃ e, bufGetEstimator (BufKind.lsq 2 Weighting.NONE)
        [⟨0, 1, [⟨5, 7⟩]⟩, ⟨20000000, 1, [⟨6, 9⟩]⟩] 0 = some e ∧
      e.degree ≤ effDeg 2 (bufGather (BufKind.lsq 2 Weighting.NONE)
        [⟨0, 1, [⟨5, 7⟩]⟩, ⟨20000000, 1, [⟨6, 9⟩]⟩] 0).length ∧
      effDeg 2 (bufGather (BufKind.lsq 2 Weighting.NONE)
        [⟨0, 1, [⟨5, 7⟩]⟩, ⟨20000000, 1, [⟨6, 9⟩]⟩] 0).length ≤ MAX_DEGREE ∧
      (1 ≤ effDeg 2 (bufGather (BufKind.lsq 2 Weighting.NONE)
          [⟨0, 1, [⟨5, 7⟩]⟩, ⟨20000000, 1, [⟨6, 9⟩]⟩] 0).length →
        ∀ e', attemptFit (effDeg 2 (bufGather (BufKind.lsq 2 Weighting.NONE)
            [⟨0, 1, [⟨5, 7⟩]⟩, ⟨20000000, 1, [⟨6, 9⟩]⟩] 0).length)
          (newestTime [⟨0, 1, [⟨5, 7⟩]⟩, ⟨20000000, 1, [⟨6, 9⟩]⟩])
          (chooseWeights Weighting.NONE (bufGather (BufKind.lsq 2 Weighting.NONE)
            [⟨0, 1, [⟨5, 7⟩]⟩, ⟨20000000, 1, [⟨6, 9⟩]⟩] 0))
          (bufGather (BufKind.lsq 2 Weighting.NONE)
            [⟨0, 1, [⟨5, 7⟩]⟩, ⟨20000000, 1, [⟨6, 9⟩]⟩] 0) = some e' → e = e') ∧
      (effDeg 2 (bufGather (BufKind.lsq 2 Weighting.NONE)
          [⟨0, 1, [⟨5, 7⟩]⟩, ⟨20000000, 1, [⟨6, 9⟩]⟩] 0).length = 0 →
        e = degree0Est (newestTime [⟨0, 1, [⟨5, 7⟩]⟩, ⟨20000000, 1, [⟨6, 9⟩]⟩])
          (bufGather (BufKind.lsq 2 Weighting.NONE)
            [⟨0, 1, [⟨5, 7⟩]⟩, ⟨20000000, 1, [⟨6, 9⟩]⟩] 0)) :=
  lsq_effective_degree 2 Weighting.NONE
    [⟨0, 1, [⟨5, 7⟩]⟩, ⟨20000000, 1, [⟨6, 9⟩]⟩] 0
    (by with_unfolding_all decide)

/-- Witness for C6 at a concrete input: with pointers 1 and 2 both
having history, clearing pointer 2 leaves pointer 1's estimator
unchanged (and clearing makes pointer 2 itself fail, per the same
theorem applied with the bit set). -/
theorem clearPointers_frame_effect_witness :
    (((Tracker.init Strategy.LSQ2).addMovement ⟨0, 6, [⟨1, 2⟩, ⟨3, 4⟩]⟩
        |>.addMovement ⟨20000000, 6, [⟨2, 3⟩, ⟨5, 6⟩]⟩).clearPointers 4).getEstimator 1 =
      ((Tracker.init Strategy.LSQ2).addMovement ⟨0, 6, [⟨1, 2⟩, ⟨3, 4⟩]⟩
        |>.addMovement ⟨20000000, 6, [⟨2, 3⟩, ⟨5, 6⟩]⟩).getEstimator 1 :=
  ((clearPointers_frame_effect
    ((Tracker.init Strategy.LSQ2).addMovement ⟨0, 6, [⟨1, 2⟩, ⟨3, 4⟩]⟩
      |>.addMovement ⟨20000000, 6, [⟨2, 3⟩, ⟨5, 6⟩]⟩) 4 1 (by decide)).1
    (by decide)).1

end VT
